import Mathlib

/-!
Verification of the BOM aggregation and merchandising-allocation engine of
`src/pages/SnapshotDetailPage.tsx` (repository `Ephany-UI-React`).

The two algorithms under scrutiny are the `aggregatedBOM` memo (BOM
Aggregator) and the `donutData` memo (Merchandising Allocator).  Both are
pure functions of the snapshot's instance collection, so they are embedded
shallowly below: TypeScript objects become Lean structures, the mutable
`Map`/`Record` accumulators become association lists updated functionally
(JS `Map` and string-keyed objects preserve insertion order, which the list
models; no theorem below depends on the enumeration-order subtlety of JS
objects with array-index-like keys), and JS numbers become exact rationals
(`ℚ`).  `Number.prototype.toFixed` is modelled by exact decimal rounding
with ties away from the smaller candidate, per its ECMA-262 definition
("if there are two such n, pick the larger n").  `Array.prototype.sort`
(required by ECMA-262 to be stable and comparator-consistent) is modelled
by the stable `List.insertionSort`.  `String.prototype.localeCompare` has
an implementation/locale-defined order, so the BOM sort is parametrised by
the boolean relation `tle` standing for "localeCompare ≤ 0"; no theorem
about row *contents* depends on it.
-/

/-- The embedded-object form of a manufacturer reference
(`{ name: string }`), as recognised by `getManufacturerName`. -/
structure Manufacturer where
  name : String
deriving DecidableEq

mutual

/-- `Asset` from `src/api/assets.ts`, restricted to the fields the two
aggregators read (`id`, `type_id`, `manufacturer`, `manufacturer_name`,
`model`, `name`, `overall_width`, `components`).  Presentation-only fields
(`category`, `description`, `url`, heights, images, …) are omitted.
`type_id`/`manufacturer_name`/`model` are `Option String` so that both the
JS `null`/`undefined` case and the falsy empty string can be treated by the
`||` defaulting the source applies; `overall_width` is `Option ℚ`, `none`
standing for a missing or non-numeric width (`Number(x) || 0`).
`manufacturer` is `some m` exactly when the runtime value is an object
carrying a `name` field (the duck-typed branch of `getManufacturerName`);
the numeric-id form of the field is `none`. -/
inductive Asset where
  | mk (id : Nat) (type_id : Option String) (manufacturer : Option Manufacturer)
      (manufacturer_name : Option String) (model : Option String) (name : String)
      (overall_width : Option ℚ) (components : Option (List AssetComponent))

/-- `AssetComponent` from `src/api/assets.ts`: a component definition on a
parent asset.  `id`/`parent_asset` are never read by the aggregators and
are omitted.  `child_asset` is optional because the source guards it for
truthiness before use. -/
inductive AssetComponent where
  | mk (child_asset : Option Asset) (quantity_required : Nat)
      (can_add_per_instance : Bool)

end

def Asset.id : Asset → Nat
  | .mk i _ _ _ _ _ _ _ => i

def Asset.type_id : Asset → Option String
  | .mk _ t _ _ _ _ _ _ => t

def Asset.manufacturer : Asset → Option Manufacturer
  | .mk _ _ m _ _ _ _ _ => m

def Asset.manufacturer_name : Asset → Option String
  | .mk _ _ _ mn _ _ _ _ => mn

def Asset.model : Asset → Option String
  | .mk _ _ _ _ mo _ _ _ => mo

def Asset.name : Asset → String
  | .mk _ _ _ _ _ n _ _ => n

def Asset.overall_width : Asset → Option ℚ
  | .mk _ _ _ _ _ _ w _ => w

def Asset.components : Asset → Option (List AssetComponent)
  | .mk _ _ _ _ _ _ _ c => c

def AssetComponent.child_asset : AssetComponent → Option Asset
  | .mk c _ _ => c

def AssetComponent.quantity_required : AssetComponent → Nat
  | .mk _ q _ => q

def AssetComponent.can_add_per_instance : AssetComponent → Bool
  | .mk _ _ f => f

/-- `AssetComponentInstance` from `src/api/assets.ts`: an optional component
actually added to one asset instance.  The serializer helper fields are
omitted; `asset_component` is optional because the source reads it with
optional chaining (`opt.asset_component?.child_asset`). -/
structure AssetComponentInstance where
  asset_component : Option AssetComponent
  quantity : Nat

/-- The instance-level custom-fields record; the aggregators only ever read
its `merch_category` entry (cast to string by the source, so it is
modelled as `Option String`). -/
structure CustomFields where
  merch_category : Option String

/-- `AssetInstance` from `src/api/assets.ts`, restricted to the fields the
aggregators read.  `asset_details` and `optional_components` are optional
because the source guards both (`if (!parent) return`,
`if (inst.optional_components)`). -/
structure AssetInstance where
  asset_details : Option Asset
  optional_components : Option (List AssetComponentInstance)
  custom_fields : Option CustomFields

/-- JS `s || d` for an optional string `s`: both `null`/`undefined` and the
empty string are falsy and yield the default. -/
def jsOrStr (s : Option String) (d : String) : String :=
  match s with
  | some v => if v = "" then d else v
  | none => d

/-- `getManufacturerName` from `SnapshotDetailPage.tsx`: prefer the
embedded object's `name`, else `manufacturer_name || "—"`, with `"—"` for a
missing asset. -/
def getManufacturerName : Option Asset → String
  | none => "—"
  | some a =>
    match a.manufacturer with
    | some m => m.name
    | none => jsOrStr a.manufacturer_name "—"

/-- A row of the aggregated BOM (`interface BOMItem`).  `contributingParents`
models the JS `Set<string>` in insertion order; insertion is guarded so the
list never contains duplicates. -/
structure BOMItem where
  assetId : Nat
  typeId : String
  name : String
  manufacturer : String
  model : String
  totalQuantity : Nat
  isComponent : Bool
  contributingParents : List String
  originalAsset : Asset

/-- `Set.add` on the insertion-ordered list model of a JS `Set<string>`. -/
def setAdd (l : List String) (s : String) : List String :=
  if s ∈ l then l else l ++ [s]

/-- The `if (parentName) …add(parentName)` step of `addItem`: a missing
parent name — and, because JS tests truthiness, the empty string — adds
nothing. -/
def addParentName (ps : List String) (parentName : Option String) : List String :=
  match parentName with
  | some p => if p = "" then ps else setAdd ps p
  | none => ps

/-- The update applied by `addItem` to an existing row:
`existing.totalQuantity += qty` and the guarded parent-name insertion. -/
def bumpRow (it : BOMItem) (qty : Nat) (parentName : Option String) : BOMItem :=
  { it with totalQuantity := it.totalQuantity + qty,
            contributingParents := addParentName it.contributingParents parentName }

/-- The fresh row built by `addItem` when the asset has no row yet
(`bomMap.set(asset.id, {...})`). -/
def mkRow (asset : Asset) (qty : Nat) (isComp : Bool) (parentName : Option String) :
    BOMItem :=
  { assetId := asset.id,
    typeId := jsOrStr asset.type_id "—",
    name := asset.name,
    manufacturer := getManufacturerName (some asset),
    model := jsOrStr asset.model "—",
    totalQuantity := qty,
    isComponent := isComp,
    contributingParents := addParentName [] parentName,
    originalAsset := asset }

/-- `addItem` from the `aggregatedBOM` memo.  The `Map<number, BOMItem>` is
modelled as a list of rows in insertion order; a `get` hit updates the row
in place, a miss appends.  The `if (!asset) return` guard is the `none`
branch. -/
def addItem (m : List BOMItem) (asset? : Option Asset) (qty : Nat) (isComp : Bool)
    (parentName : Option String) : List BOMItem :=
  match asset? with
  | none => m
  | some asset =>
    if m.any (fun it => it.assetId == asset.id) then
      m.map (fun it => if it.assetId == asset.id then bumpRow it qty parentName else it)
    else
      m ++ [mkRow asset qty isComp parentName]

/-- The body of `instances.forEach` in the `aggregatedBOM` memo: register the
parent, then its non-per-instance component definitions, then the
instance's optional components. -/
def processInstance (m : List BOMItem) (inst : AssetInstance) : List BOMItem :=
  match inst.asset_details with
  | none => m
  | some parent =>
    let m1 := addItem m (some parent) 1 false none
    let m2 :=
      match parent.components with
      | none => m1
      | some comps =>
        comps.foldl (fun acc comp =>
          if !comp.can_add_per_instance && comp.child_asset.isSome then
            addItem acc comp.child_asset comp.quantity_required true (some parent.name)
          else acc) m1
    match inst.optional_components with
    | none => m2
    | some opts =>
      opts.foldl (fun acc opt =>
        match opt.asset_component.bind AssetComponent.child_asset with
        | some child => addItem acc (some child) opt.quantity true (some parent.name)
        | none => acc) m2

/-- The BOM accumulator after the `instances.forEach` pass
(`Array.from(bomMap.values())` before sorting). -/
def bomList (insts : List AssetInstance) : List BOMItem :=
  insts.foldl processInstance []

/-- The `aggregatedBOM` comparator, as the boolean relation
"`compare(a, b) <= 0`": rows with equal `isComponent` flags compare by
`typeId.localeCompare`; otherwise the comparator returns
`a.isComponent ? 1 : -1`, so `a` sorts no later than `b` exactly when `a`
is a parent.  `tle a b` stands for the host-collation fact
`a.localeCompare(b) <= 0`, which ECMA-262/402 leave implementation- and
locale-defined, hence the parameter. -/
def bomLeB (tle : String → String → Bool) (a b : BOMItem) : Bool :=
  if a.isComponent == b.isComponent then tle a.typeId b.typeId
  else !a.isComponent

/-- The comparator as a `Prop`-valued relation, for `List.insertionSort`. -/
def bomLe (tle : String → String → Bool) (a b : BOMItem) : Prop :=
  bomLeB tle a b = true

instance (tle : String → String → Bool) : DecidableRel (bomLe tle) :=
  fun a b => instDecidableEqBool (bomLeB tle a b) true

/-- The full `aggregatedBOM` memo: accumulate, then stable-sort with the
comparator above. -/
def aggregatedBOM (tle : String → String → Bool) (insts : List AssetInstance) :
    List BOMItem :=
  List.insertionSort (bomLe tle) (bomList insts)

/-- A slice of the donut chart data (`interface ChartItem`). -/
structure ChartItem where
  name : String
  value : ℚ
  percentage : ℚ
deriving DecidableEq

/-- The decimal digits of a natural number, built by structural recursion
on a fuel bound (`n` itself suffices, since `n / 10 < n` for `n ≥ 10`). -/
def natDigits : Nat → Nat → List Char
  | 0, _ => []
  | fuel + 1, n =>
    let d : Char :=
      match n % 10 with
      | 0 => '0' | 1 => '1' | 2 => '2' | 3 => '3' | 4 => '4'
      | 5 => '5' | 6 => '6' | 7 => '7' | 8 => '8' | _ => '9'
    if n < 10 then [d] else natDigits fuel (n / 10) ++ [d]

/-- The decimal string of a natural number. -/
def natToStr (n : Nat) : String := ⟨natDigits (n + 1) n⟩

/-- `Number(x.toFixed(2))` on the exact-rational model: round to 2 decimal
places, ties towards the larger candidate. -/
def round2 (q : ℚ) : ℚ := (⌊q * 100 + 1 / 2⌋ : ℤ) / 100

/-- `Number(x.toFixed(1))`: round to 1 decimal place. -/
def round1 (q : ℚ) : ℚ := (⌊q * 10 + 1 / 2⌋ : ℤ) / 10

/-- `x.toFixed(1)` as the displayed string, for the non-negative totals the
allocator produces: one fractional digit. -/
def toFixed1 (q : ℚ) : String :=
  let n : Nat := (⌊q * 10 + 1 / 2⌋).toNat
  natToStr (n / 10) ++ "." ++ natToStr (n % 10)

/-- `Number(inst.asset_details?.overall_width) || 0`: the instance's width
in millimeters, zero when the asset or its width is missing/non-numeric. -/
def widthMM (inst : AssetInstance) : ℚ :=
  match inst.asset_details with
  | some a => a.overall_width.getD 0
  | none => 0

/-- `(inst.custom_fields?.merch_category as string) || ""`. -/
def catStringOf (inst : AssetInstance) : String :=
  match inst.custom_fields with
  | some cf => cf.merch_category.getD ""
  | none => ""

/-- Whether a character is whitespace: the model both of the regex class
`\s` and of the character class `String.prototype.trim` strips. -/
def isWs (c : Char) : Bool := c.isWhitespace

/-- JS `String.prototype.trim` on the character list: strip leading and
trailing whitespace. -/
def trimChars (l : List Char) : List Char :=
  ((l.dropWhile isWs).reverse.dropWhile isWs).reverse

/-- JS `String.prototype.trim`. -/
def jsTrim (s : String) : String := ⟨trimChars s.data⟩

/-- JS `s.split("//")` on the character list: split at each leftmost
non-overlapping occurrence of the two-character separator. -/
def splitDS : List Char → List (List Char)
  | [] => [[]]
  | '/' :: '/' :: r => [] :: splitDS r
  | c :: r =>
    match splitDS r with
    | t :: ts => (c :: t) :: ts
    | [] => [[c]]

/-- JS `s.split("//")`. -/
def jsSplitDS (s : String) : List String := (splitDS s.data).map (fun l => ⟨l⟩)

/-- `catString.split("//").map(s => s.trim()).filter(Boolean)`:
the parsed category tokens of a tag. -/
def parseCategories (catString : String) : List String :=
  ((jsSplitDS catString).map jsTrim).filter (fun s => s ≠ "")

/-- `categoryMap[cat] = (categoryMap[cat] || 0) + v` on the insertion-ordered
association-list model of the string-keyed accumulator object. -/
def mapAdd (m : List (String × ℚ)) (k : String) (v : ℚ) : List (String × ℚ) :=
  if m.any (fun e => e.1 == k) then
    m.map (fun e => if e.1 == k then (e.1, e.2 + v) else e)
  else
    m ++ [(k, v)]

/-- The body of `instances.forEach` in the `donutData` memo: skip untagged
instances, split the tag, and add the per-category share `lfShare` both to
each named category and (once per category) to the running grand total. -/
def processMerch (acc : List (String × ℚ) × ℚ) (inst : AssetInstance) :
    List (String × ℚ) × ℚ :=
  let wMM := widthMM inst
  let catString := catStringOf inst
  if jsTrim catString = "" then acc
  else
    let categories := parseCategories catString
    let lfShare := (wMM / categories.length) / (304.8 : ℚ)
    categories.foldl (fun a cat => (mapAdd a.1 cat lfShare, a.2 + lfShare)) acc

/-- The `(categoryMap, totalLF)` pair after the allocator's accumulation
pass. -/
def merchFold (insts : List AssetInstance) : List (String × ℚ) × ℚ :=
  insts.foldl processMerch ([], 0)

/-- One global regex replacement pass for
`cat.replace(/\s*\/\/\s*/g, ", ")` over the character list, fuelled by the
input length (each step consumes at least one character, so the fuel never
runs out on `replDS`'s call). -/
def replDSGo : Nat → List Char → List Char
  | 0, l => l
  | _ + 1, [] => []
  | n + 1, c :: cs =>
    match (c :: cs).dropWhile isWs with
    | '/' :: '/' :: r => ',' :: ' ' :: replDSGo n (r.dropWhile isWs)
    | _ => c :: replDSGo n cs

/-- `cat.replace(/\s*\/\/\s*/g, ", ")` — the display formatting applied to
category labels. -/
def replDS (s : String) : String := ⟨replDSGo s.length s.data⟩

/-- The descending-by-`value` sort relation of
`.sort((a, b) => b.value - a.value)`. -/
def chartGE (a b : ChartItem) : Prop := b.value ≤ a.value

instance : DecidableRel chartGE := fun a b => by unfold chartGE; infer_instance

instance : IsTotal ChartItem chartGE := ⟨fun a b => le_total b.value a.value⟩

instance : IsTrans ChartItem chartGE :=
  ⟨fun _ _ _ h1 h2 => le_trans h2 h1⟩

/-- `sortedCategories` from the `donutData` memo: one `ChartItem` per
distinct category key, value rounded to 2 decimals, percentage of the grand
total rounded to 1 decimal (0 on a non-positive total), sorted descending
by value (stably, as ECMA-262 requires of `Array.prototype.sort`). -/
def sortedCategories (insts : List AssetInstance) : List ChartItem :=
  let acc := merchFold insts
  let totalLF := acc.2
  List.insertionSort chartGE
    (acc.1.map (fun e =>
      { name := replDS e.1,
        value := round2 e.2,
        percentage := if totalLF > 0 then round1 (e.2 / totalLF * 100) else 0 }))

/-- The donut data set: the top `topCount` rows, plus — when rows remain —
one synthetic "Other Merchandising" row collapsing the rest. -/
def donutData (insts : List AssetInstance) (topCount : Nat) : List ChartItem :=
  let totalLF := (merchFold insts).2
  let sorted := sortedCategories insts
  let topSlice := sorted.take topCount
  let others := sorted.drop topCount
  if others.length > 0 then
    let otherValue := others.foldl (fun sum item => sum + item.value) 0
    topSlice ++
      [{ name := "Other Merchandising",
         value := round2 otherValue,
         percentage := if totalLF > 0 then round1 (otherValue / totalLF * 100) else 0 }]
  else topSlice

/-- `totalMerchandisableLF`: the grand total formatted with
`totalLF.toFixed(1)`. -/
def totalMerchandisableLF (insts : List AssetInstance) : String :=
  toFixed1 (merchFold insts).2

/-! ## Analysis layer: the BOM pass as a fold over flattened contributions

Each instance triggers a sequence of `addItem` calls with a resolved
(non-null) asset; flattening the whole pass into that call sequence lets
every per-row property be read off one characterization lemma. -/

/-- One resolved `addItem` call: the asset registered, the quantity added,
the role flag passed, and the optional contributing-parent name. -/
structure Contribution where
  asset : Asset
  qty : Nat
  isComp : Bool
  parentName : Option String

/-- `addItem` specialised to a resolved contribution. -/
def applyContrib (m : List BOMItem) (c : Contribution) : List BOMItem :=
  addItem m (some c.asset) c.qty c.isComp c.parentName

/-- The resolved `addItem` calls made while processing one instance: the
parent registration, then the non-per-instance component definitions with
a present child, then the optional components with a resolvable child. -/
def instContribs (inst : AssetInstance) : List Contribution :=
  match inst.asset_details with
  | none => []
  | some parent =>
    ⟨parent, 1, false, none⟩ ::
    ((match parent.components with
      | none => []
      | some comps =>
        comps.filterMap (fun comp =>
          match comp.child_asset, comp.can_add_per_instance with
          | some ch, false => some ⟨ch, comp.quantity_required, true, some parent.name⟩
          | _, _ => none)) ++
     (match inst.optional_components with
      | none => []
      | some opts =>
        opts.filterMap (fun opt =>
          (opt.asset_component.bind AssetComponent.child_asset).map
            (fun child => ⟨child, opt.quantity, true, some parent.name⟩))))

/-- The resolved `addItem` calls of the whole pass, in execution order. -/
def contributions (insts : List AssetInstance) : List Contribution :=
  insts.foldr (fun i acc => instContribs i ++ acc) []

theorem foldl_filterMap_gen {α β γ : Type} (f : α → Option β) (g : γ → β → γ)
    (l : List α) (init : γ) :
    (l.filterMap f).foldl g init =
      l.foldl (fun acc x => match f x with | some y => g acc y | none => acc) init := by
  induction l generalizing init with
  | nil => rfl
  | cons a l ih =>
    simp only [List.filterMap_cons]
    cases h : f a <;> simp [h, ih]

theorem processInstance_eq_foldl (m : List BOMItem) (inst : AssetInstance) :
    processInstance m inst = (instContribs inst).foldl applyContrib m := by
  unfold processInstance instContribs
  cases inst.asset_details with
  | none => rfl
  | some parent =>
    simp only [List.foldl_cons, List.foldl_append]
    have hcomps : ∀ (m1 : List BOMItem),
        (match parent.components with
         | none => m1
         | some comps =>
           comps.foldl (fun acc comp =>
             if !comp.can_add_per_instance && comp.child_asset.isSome then
               addItem acc comp.child_asset comp.quantity_required true (some parent.name)
             else acc) m1) =
        ((match parent.components with
          | none => []
          | some comps =>
            comps.filterMap (fun comp =>
              match comp.child_asset, comp.can_add_per_instance with
              | some ch, false => some ⟨ch, comp.quantity_required, true, some parent.name⟩
              | _, _ => none)) : List Contribution).foldl applyContrib m1 := by
      intro m1
      cases parent.components with
      | none => rfl
      | some comps =>
        rw [foldl_filterMap_gen]
        refine List.foldl_ext _ _ _ (fun acc comp _ => ?_)
        cases hch : comp.child_asset with
        | none => cases hf : comp.can_add_per_instance <;> simp [hch, hf, addItem]
        | some ch => cases hf : comp.can_add_per_instance <;> simp [hch, hf, applyContrib]
    have hopts : ∀ (m2 : List BOMItem),
        (match inst.optional_components with
         | none => m2
         | some opts =>
           opts.foldl (fun acc opt =>
             match opt.asset_component.bind AssetComponent.child_asset with
             | some child => addItem acc (some child) opt.quantity true (some parent.name)
             | none => acc) m2) =
        ((match inst.optional_components with
          | none => []
          | some opts =>
            opts.filterMap (fun opt =>
              (opt.asset_component.bind AssetComponent.child_asset).map
                (fun child => ⟨child, opt.quantity, true, some parent.name⟩))) :
          List Contribution).foldl applyContrib m2 := by
      intro m2
      cases inst.optional_components with
      | none => rfl
      | some opts =>
        rw [foldl_filterMap_gen]
        refine List.foldl_ext _ _ _ (fun acc opt _ => ?_)
        cases hch : opt.asset_component.bind AssetComponent.child_asset <;>
          simp [hch, applyContrib]
    rw [← hcomps, ← hopts]
    rfl

theorem bomList_eq_foldl (insts : List AssetInstance) :
    bomList insts = (contributions insts).foldl applyContrib [] := by
  suffices h : ∀ (m : List BOMItem),
      insts.foldl processInstance m = (contributions insts).foldl applyContrib m by
    exact h []
  induction insts with
  | nil => intro m; rfl
  | cons i insts ih =>
    intro m
    simp only [List.foldl_cons, contributions, List.foldr_cons, List.foldl_append]
    rw [processInstance_eq_foldl]
    exact ih _

/-- `bomMap.get(x)` on the list model: the first (and, by the key-uniqueness
invariant, only) row with the given asset identifier. -/
def findRow (x : Nat) (m : List BOMItem) : Option BOMItem :=
  m.find? (fun it => it.assetId == x)

/-- The contributions aimed at one asset identifier, in execution order. -/
def contribsFor (x : Nat) (cs : List Contribution) : List Contribution :=
  cs.filter (fun c => c.asset.id == x)

/-- Replay a list of contributions onto an existing row. -/
def applyAll (it : BOMItem) (cs : List Contribution) : BOMItem :=
  cs.foldl (fun r c => bumpRow r c.qty c.parentName) it

/-- The row a contribution list produces for one asset identifier: the
first matching contribution creates the row, the rest only bump it. -/
def rowOf (x : Nat) (cs : List Contribution) : Option BOMItem :=
  match contribsFor x cs with
  | [] => none
  | c :: rest => some (applyAll (mkRow c.asset c.qty c.isComp c.parentName) rest)

theorem bumpRow_assetId (it : BOMItem) (q : Nat) (p : Option String) :
    (bumpRow it q p).assetId = it.assetId := rfl


theorem findRow_applyContrib (m : List BOMItem) (c : Contribution) (x : Nat) :
    findRow x (applyContrib m c) =
      if c.asset.id = x then
        some (match findRow x m with
              | some it => bumpRow it c.qty c.parentName
              | none => mkRow c.asset c.qty c.isComp c.parentName)
      else findRow x m := by
  simp only [findRow, applyContrib, addItem]
  by_cases hany : (m.any fun it => it.assetId == c.asset.id) = true
  · rw [if_pos hany, List.find?_map]
    have hpred : ((fun it : BOMItem => it.assetId == x) ∘ (fun it =>
        if it.assetId == c.asset.id then bumpRow it c.qty c.parentName else it)) =
        (fun it : BOMItem => it.assetId == x) := by
      funext it
      have hid : (if it.assetId == c.asset.id then
          bumpRow it c.qty c.parentName else it).assetId = it.assetId := by
        by_cases h : (it.assetId == c.asset.id) = true <;> simp [h, bumpRow_assetId]
      simp only [Function.comp_apply, hid]
    rw [hpred]
    rcases hfound : m.find? (fun it => it.assetId == x) with _ | it
    · by_cases hx : c.asset.id = x
      · exfalso
        obtain ⟨jt, hjt, hp⟩ := List.any_eq_true.mp hany
        have h1 : jt.assetId = c.asset.id := eq_of_beq hp
        have hjx : (jt.assetId == x) = true := by simp [h1, hx]
        exact absurd hjx (by simpa using List.find?_eq_none.mp hfound jt hjt)
      · simp [hfound, hx]
    · have hfs := List.find?_some hfound
      have hit : it.assetId = x := eq_of_beq hfs
      by_cases hx : c.asset.id = x
      · have hbeq : (it.assetId == c.asset.id) = true := by simp [hit, hx]
        simp only [hfound, hx, hbeq, Option.map_some, if_pos, if_true]
        simp [hit]
      · have hbeq : (it.assetId == c.asset.id) = false := by
          simp only [beq_eq_false_iff_ne, ne_eq, hit]
          exact fun h => hx h.symm
        simp only [hfound, hx, hbeq, Option.map_some, if_neg, if_false]
        have hne : it.assetId ≠ c.asset.id := by
          rw [hit]
          exact fun h => hx h.symm
        simp [hne]
  · rw [if_neg hany, List.find?_append]
    have hmnone : m.find? (fun it => it.assetId == c.asset.id) = none := by
      rw [List.find?_eq_none]
      intro it hit hp
      exact hany (List.any_eq_true.mpr ⟨it, hit, hp⟩)
    by_cases hx : c.asset.id = x
    · subst hx
      have hnew : ((mkRow c.asset c.qty c.isComp c.parentName).assetId ==
          c.asset.id) = true := by
        simp [mkRow]
      simp [hmnone, List.find?_cons, hnew]
    · have hnew : ((mkRow c.asset c.qty c.isComp c.parentName).assetId == x) = false := by
        simp only [mkRow, beq_eq_false_iff_ne, ne_eq]
        exact hx
      simp only [List.find?_cons, hnew, cond_false]
      rcases hgen : m.find? (fun it => it.assetId == x) with _ | it <;> simp [hx]

theorem contribsFor_cons (x : Nat) (c : Contribution) (cs : List Contribution) :
    contribsFor x (c :: cs) =
      if c.asset.id = x then c :: contribsFor x cs else contribsFor x cs := by
  simp only [contribsFor, List.filter_cons]
  by_cases h : c.asset.id = x <;> simp [h]

/-- The central characterization: after replaying a contribution list onto
an accumulator, the row found for an identifier is the accumulator's row
with all matching contributions replayed, or — if the accumulator had
none — the row the matching contributions build from scratch. -/
theorem findRow_foldl (cs : List Contribution) (m : List BOMItem) (x : Nat) :
    findRow x (cs.foldl applyContrib m) =
      match findRow x m with
      | some it => some (applyAll it (contribsFor x cs))
      | none => rowOf x cs := by
  induction cs generalizing m with
  | nil =>
    rcases h : findRow x m with _ | it <;> simp [h, applyAll, rowOf, contribsFor]
  | cons c cs ih =>
    rw [List.foldl_cons, ih (applyContrib m c), findRow_applyContrib,
      contribsFor_cons]
    by_cases hx : c.asset.id = x
    · rw [if_pos hx, if_pos hx]
      rcases h : findRow x m with _ | it
      · simp only [rowOf, contribsFor_cons, if_pos hx]
      · simp [applyAll]
    · rw [if_neg hx, if_neg hx]
      rcases h : findRow x m with _ | it
      · simp only [rowOf, contribsFor_cons, if_neg hx]
      · rfl

theorem findRow_bomList (insts : List AssetInstance) (x : Nat) :
    findRow x (bomList insts) = rowOf x (contributions insts) := by
  rw [bomList_eq_foldl, findRow_foldl]
  rfl

theorem applyAll_assetId (it : BOMItem) (cs : List Contribution) :
    (applyAll it cs).assetId = it.assetId := by
  induction cs generalizing it with
  | nil => rfl
  | cons c cs ih => rw [applyAll, List.foldl_cons, ← applyAll, ih]; rfl

theorem applyAll_typeId (it : BOMItem) (cs : List Contribution) :
    (applyAll it cs).typeId = it.typeId := by
  induction cs generalizing it with
  | nil => rfl
  | cons c cs ih => rw [applyAll, List.foldl_cons, ← applyAll, ih]; rfl

theorem applyAll_name (it : BOMItem) (cs : List Contribution) :
    (applyAll it cs).name = it.name := by
  induction cs generalizing it with
  | nil => rfl
  | cons c cs ih => rw [applyAll, List.foldl_cons, ← applyAll, ih]; rfl

theorem applyAll_manufacturer (it : BOMItem) (cs : List Contribution) :
    (applyAll it cs).manufacturer = it.manufacturer := by
  induction cs generalizing it with
  | nil => rfl
  | cons c cs ih => rw [applyAll, List.foldl_cons, ← applyAll, ih]; rfl

theorem applyAll_model (it : BOMItem) (cs : List Contribution) :
    (applyAll it cs).model = it.model := by
  induction cs generalizing it with
  | nil => rfl
  | cons c cs ih => rw [applyAll, List.foldl_cons, ← applyAll, ih]; rfl

theorem applyAll_isComponent (it : BOMItem) (cs : List Contribution) :
    (applyAll it cs).isComponent = it.isComponent := by
  induction cs generalizing it with
  | nil => rfl
  | cons c cs ih => rw [applyAll, List.foldl_cons, ← applyAll, ih]; rfl

theorem applyAll_originalAsset (it : BOMItem) (cs : List Contribution) :
    (applyAll it cs).originalAsset = it.originalAsset := by
  induction cs generalizing it with
  | nil => rfl
  | cons c cs ih => rw [applyAll, List.foldl_cons, ← applyAll, ih]; rfl

theorem applyAll_totalQuantity (it : BOMItem) (cs : List Contribution) :
    (applyAll it cs).totalQuantity =
      it.totalQuantity + (cs.map Contribution.qty).sum := by
  induction cs generalizing it with
  | nil => simp [applyAll]
  | cons c cs ih =>
    rw [applyAll, List.foldl_cons, ← applyAll, ih]
    simp [bumpRow, Nat.add_assoc]

theorem applyAll_contributingParents (it : BOMItem) (cs : List Contribution) :
    (applyAll it cs).contributingParents =
      cs.foldl (fun ps c => addParentName ps c.parentName) it.contributingParents := by
  induction cs generalizing it with
  | nil => rfl
  | cons c cs ih =>
    rw [applyAll, List.foldl_cons, ← applyAll, ih, List.foldl_cons]
    rfl

/-- The asset identifiers of the accumulator's rows, in insertion order. -/
def rowIds (m : List BOMItem) : List Nat := m.map BOMItem.assetId

theorem rowIds_applyContrib (m : List BOMItem) (c : Contribution) :
    rowIds (applyContrib m c) =
      if (m.any fun it => it.assetId == c.asset.id) = true then rowIds m
      else rowIds m ++ [c.asset.id] := by
  simp only [applyContrib, addItem]
  by_cases hany : (m.any fun it => it.assetId == c.asset.id) = true
  · rw [if_pos hany, if_pos hany]
    simp only [rowIds, List.map_map]
    congr 1
    funext it
    by_cases h : it.assetId = c.asset.id <;> simp [h, bumpRow_assetId]
  · rw [if_neg hany, if_neg hany]
    simp [rowIds, mkRow]

theorem nodup_rowIds_applyContrib (m : List BOMItem) (c : Contribution)
    (h : (rowIds m).Nodup) : (rowIds (applyContrib m c)).Nodup := by
  rw [rowIds_applyContrib]
  by_cases hany : (m.any fun it => it.assetId == c.asset.id) = true
  · rwa [if_pos hany]
  · rw [if_neg hany, List.nodup_append]
    refine ⟨h, List.nodup_singleton _, ?_⟩
    intro a ha hb
    rw [List.mem_singleton] at hb
    subst hb
    obtain ⟨it, hit, hid⟩ := List.mem_map.mp ha
    exact hany (List.any_eq_true.mpr ⟨it, hit, by simp [hid]⟩)

theorem nodup_rowIds_foldl (cs : List Contribution) (m : List BOMItem)
    (h : (rowIds m).Nodup) : (rowIds (cs.foldl applyContrib m)).Nodup := by
  induction cs generalizing m with
  | nil => exact h
  | cons c cs ih => exact ih _ (nodup_rowIds_applyContrib m c h)

theorem nodup_rowIds_bomList (insts : List AssetInstance) :
    (rowIds (bomList insts)).Nodup := by
  rw [bomList_eq_foldl]
  exact nodup_rowIds_foldl _ [] List.nodup_nil

theorem findRow_of_mem (m : List BOMItem) (r : BOMItem) (hmem : r ∈ m)
    (hnd : (rowIds m).Nodup) : findRow r.assetId m = some r := by
  induction m with
  | nil => cases hmem
  | cons it m ih =>
    rw [rowIds, List.map_cons, List.nodup_cons] at hnd
    rcases List.mem_cons.mp hmem with h | h
    · subst h
      simp [findRow, List.find?_cons]
    · have hne : (it.assetId == r.assetId) = false := by
        rw [beq_eq_false_iff_ne]
        intro heq
        exact hnd.1 (heq ▸ List.mem_map.mpr ⟨r, h, rfl⟩)
      simp only [findRow, List.find?_cons, hne, cond_false]
      exact ih h hnd.2

theorem mem_aggregatedBOM_iff (tle : String → String → Bool)
    (insts : List AssetInstance) (r : BOMItem) :
    r ∈ aggregatedBOM tle insts ↔ r ∈ bomList insts :=
  (List.perm_insertionSort (bomLe tle) (bomList insts)).mem_iff

/-- Every output row is exactly the row the matching contributions
characterize: the first matching contribution created it, the rest were
replayed onto it. -/
theorem row_characterization (tle : String → String → Bool)
    (insts : List AssetInstance) (r : BOMItem)
    (hmem : r ∈ aggregatedBOM tle insts) :
    rowOf r.assetId (contributions insts) = some r := by
  rw [← findRow_bomList]
  exact findRow_of_mem _ r ((mem_aggregatedBOM_iff tle insts r).mp hmem)
    (nodup_rowIds_bomList insts)

theorem mem_of_rowOf (tle : String → String → Bool) (insts : List AssetInstance)
    (r : BOMItem) (h : rowOf r.assetId (contributions insts) = some r) :
    r ∈ aggregatedBOM tle insts := by
  rw [mem_aggregatedBOM_iff]
  have hfind : findRow r.assetId (bomList insts) = some r := by
    rw [findRow_bomList]; exact h
  exact List.mem_of_find?_eq_some hfind

theorem mem_contribsFor_id (x : Nat) (cs : List Contribution) (c : Contribution)
    (h : c ∈ contribsFor x cs) : c.asset.id = x := by
  have := List.of_mem_filter h
  exact eq_of_beq this

/-! ## The quantity a single instance contributes to one asset identifier,
stated the way the specification counts it (one per parent occurrence,
`quantity_required` per non-per-instance component definition with that
child, the optional instance's own quantity per optional component). -/

/-- 1 if this instance's resolved parent asset has the identifier. -/
def parentContribution (x : Nat) (inst : AssetInstance) : Nat :=
  match inst.asset_details with
  | some p => if p.id = x then 1 else 0
  | none => 0

/-- The required quantities this instance's parent contributes to the
identifier through component definitions with `can_add_per_instance =
false` and a resolvable child with that identifier. -/
def requiredContribution (x : Nat) (inst : AssetInstance) : Nat :=
  match inst.asset_details with
  | some p =>
    match p.components with
    | some comps =>
      (comps.map (fun comp =>
        match comp.child_asset, comp.can_add_per_instance with
        | some ch, false => if ch.id = x then comp.quantity_required else 0
        | _, _ => 0)).sum
    | none => 0
  | none => 0

/-- The optional-component quantities this instance contributes to the
identifier (own quantity of each optional component instance whose child
resolves to that identifier); skipped entirely when the instance's parent
asset is unresolved, as the source skips such instances. -/
def optionalContribution (x : Nat) (inst : AssetInstance) : Nat :=
  match inst.asset_details with
  | some _ =>
    match inst.optional_components with
    | some opts =>
      (opts.map (fun opt =>
        match opt.asset_component.bind AssetComponent.child_asset with
        | some ch => if ch.id = x then opt.quantity else 0
        | none => 0)).sum
    | none => 0
  | none => 0

theorem contribsFor_append (x : Nat) (l₁ l₂ : List Contribution) :
    contribsFor x (l₁ ++ l₂) = contribsFor x l₁ ++ contribsFor x l₂ := by
  simp [contribsFor]

theorem qtySum_filterMap {α : Type} (x : Nat) (f : α → Option Contribution)
    (l : List α) :
    ((contribsFor x (l.filterMap f)).map Contribution.qty).sum =
      (l.map (fun a =>
        match f a with
        | some c => if c.asset.id = x then c.qty else 0
        | none => 0)).sum := by
  induction l with
  | nil => rfl
  | cons a l ih =>
    rw [List.filterMap_cons]
    cases hf : f a with
    | none => simpa [hf] using ih
    | some c =>
      rw [contribsFor_cons]
      by_cases hx : c.asset.id = x
      · simp [hf, hx, ih, List.sum_cons]
      · simp [hf, hx, ih]

theorem qtySum_instContribs (x : Nat) (inst : AssetInstance) :
    ((contribsFor x (instContribs inst)).map Contribution.qty).sum =
      parentContribution x inst + requiredContribution x inst +
        optionalContribution x inst := by
  unfold instContribs parentContribution requiredContribution optionalContribution
  cases hdet : inst.asset_details with
  | none => rfl
  | some parent =>
    rw [contribsFor_cons, contribsFor_append]
    have hcomp : ((contribsFor x
        ((match parent.components with
          | none => []
          | some comps =>
            comps.filterMap (fun comp =>
              match comp.child_asset, comp.can_add_per_instance with
              | some ch, false =>
                some ⟨ch, comp.quantity_required, true, some parent.name⟩
              | _, _ => none)) : List Contribution)).map Contribution.qty).sum =
        (match parent.components with
         | some comps =>
           (comps.map (fun comp =>
             match comp.child_asset, comp.can_add_per_instance with
             | some ch, false => if ch.id = x then comp.quantity_required else 0
             | _, _ => 0)).sum
         | none => 0) := by
      cases parent.components with
      | none => rfl
      | some comps =>
        rw [qtySum_filterMap]
        congr 1
        refine List.map_congr_left (fun comp _ => ?_)
        rcases comp.child_asset with _ | ch <;> rcases hfl : comp.can_add_per_instance <;>
          simp [hfl]
    have hopt : ((contribsFor x
        ((match inst.optional_components with
          | none => []
          | some opts =>
            opts.filterMap (fun opt =>
              (opt.asset_component.bind AssetComponent.child_asset).map
                (fun child => ⟨child, opt.quantity, true, some parent.name⟩))) :
          List Contribution)).map Contribution.qty).sum =
        (match inst.optional_components with
         | some opts =>
           (opts.map (fun opt =>
             match opt.asset_component.bind AssetComponent.child_asset with
             | some ch => if ch.id = x then opt.quantity else 0
             | none => 0)).sum
         | none => 0) := by
      cases inst.optional_components with
      | none => rfl
      | some opts =>
        rw [qtySum_filterMap]
        congr 1
        refine List.map_congr_left (fun opt _ => ?_)
        rcases opt.asset_component.bind AssetComponent.child_asset with _ | ch <;> simp
    by_cases hx : parent.id = x
    · simp only [if_pos hx, List.map_cons, List.sum_cons, List.map_append,
        List.sum_append, hcomp, hopt]
      exact (Nat.add_assoc _ _ _).symm
    · simp only [if_neg hx, List.map_append, List.sum_append, hcomp, hopt,
        Nat.zero_add]

theorem qtySum_contributions (x : Nat) (insts : List AssetInstance) :
    ((contribsFor x (contributions insts)).map Contribution.qty).sum =
      (insts.map (fun i => parentContribution x i + requiredContribution x i +
        optionalContribution x i)).sum := by
  induction insts with
  | nil => rfl
  | cons i insts ih =>
    simp only [contributions, List.foldr_cons] at *
    rw [contribsFor_append, List.map_append, List.sum_append, ih,
      qtySum_instContribs, List.map_cons, List.sum_cons]

/-- Every row a contribution list yields is fully determined: identifier
from the filter key, quantity the sum of matching quantities, all other
fields (role flag included) from the first matching contribution, and the
parent set the guarded fold of the matching parent names. -/
theorem rowOf_eq_some_spec (x : Nat) (cs : List Contribution) (r : BOMItem)
    (h : rowOf x cs = some r) :
    r.assetId = x ∧
    r.totalQuantity = ((contribsFor x cs).map Contribution.qty).sum ∧
    r.contributingParents =
      (contribsFor x cs).foldl (fun ps c => addParentName ps c.parentName) [] ∧
    ∃ c rest, contribsFor x cs = c :: rest ∧
      r.isComponent = c.isComp ∧
      r.typeId = jsOrStr c.asset.type_id "—" ∧
      r.name = c.asset.name ∧
      r.manufacturer = getManufacturerName (some c.asset) ∧
      r.model = jsOrStr c.asset.model "—" ∧
      r.originalAsset = c.asset := by
  unfold rowOf at h
  rcases hc : contribsFor x cs with _ | ⟨c, rest⟩
  · rw [hc] at h
    cases h
  · rw [hc] at h
    have hr : r = applyAll (mkRow c.asset c.qty c.isComp c.parentName) rest :=
      (Option.some_injective _ h).symm
    have hcx : c.asset.id = x :=
      mem_contribsFor_id x cs c (hc ▸ List.mem_cons_self c rest)
    subst hr
    refine ⟨by rw [applyAll_assetId]; exact hcx, ?_, ?_, c, rest, rfl, ?_, ?_, ?_, ?_, ?_, ?_⟩
    · rw [applyAll_totalQuantity]
      simp [mkRow]
    · rw [applyAll_contributingParents, List.foldl_cons]
      rfl
    · rw [applyAll_isComponent]; rfl
    · rw [applyAll_typeId]; rfl
    · rw [applyAll_name]; rfl
    · rw [applyAll_manufacturer]; rfl
    · rw [applyAll_model]; rfl
    · rw [applyAll_originalAsset]; rfl

theorem mem_addParentName (ps : List String) (pn : Option String) (p : String) :
    p ∈ addParentName ps pn ↔ p ∈ ps ∨ (pn = some p ∧ p ≠ "") := by
  cases pn with
  | none => simp [addParentName]
  | some q =>
    simp only [addParentName]
    by_cases hq : q = ""
    · subst hq
      simp only [if_pos rfl]
      constructor
      · exact fun h => Or.inl h
      · rintro (h | ⟨hq, hp⟩)
        · exact h
        · exact absurd (Option.some_injective _ hq).symm hp
    · rw [if_neg hq]
      unfold setAdd
      by_cases hmem : q ∈ ps
      · rw [if_pos hmem]
        constructor
        · exact fun h => Or.inl h
        · rintro (h | ⟨hqp, _⟩)
          · exact h
          · exact (Option.some_injective _ hqp) ▸ hmem
      · rw [if_neg hmem]
        simp only [List.mem_append, List.mem_singleton]
        constructor
        · rintro (h | h)
          · exact Or.inl h
          · exact Or.inr ⟨by rw [h], by rw [h]; exact hq⟩
        · rintro (h | ⟨hqp, _⟩)
          · exact Or.inl h
          · exact Or.inr (Option.some_injective _ hqp).symm

theorem nodup_addParentName (ps : List String) (pn : Option String)
    (h : ps.Nodup) : (addParentName ps pn).Nodup := by
  cases pn with
  | none => exact h
  | some q =>
    simp only [addParentName]
    by_cases hq : q = ""
    · simpa [hq] using h
    · rw [if_neg hq]
      unfold setAdd
      by_cases hmem : q ∈ ps
      · rwa [if_pos hmem]
      · rw [if_neg hmem, List.nodup_append]
        exact ⟨h, List.nodup_singleton _, by
          intro a ha hb
          rw [List.mem_singleton] at hb
          exact hmem (hb ▸ ha)⟩

theorem mem_foldl_addParentName (cs : List Contribution) (ps : List String)
    (p : String) :
    p ∈ cs.foldl (fun ps c => addParentName ps c.parentName) ps ↔
      p ∈ ps ∨ ∃ c ∈ cs, c.parentName = some p ∧ p ≠ "" := by
  induction cs generalizing ps with
  | nil => simp
  | cons c cs ih =>
    rw [List.foldl_cons, ih, mem_addParentName]
    constructor
    · rintro ((h | h) | ⟨c', hc', hp⟩)
      · exact Or.inl h
      · exact Or.inr ⟨c, List.mem_cons_self c cs, h⟩
      · exact Or.inr ⟨c', List.mem_cons_of_mem c hc', hp⟩
    · rintro (h | ⟨c', hc', hp⟩)
      · exact Or.inl (Or.inl h)
      · rcases List.mem_cons.mp hc' with h' | h'
        · exact Or.inl (Or.inr (h' ▸ hp))
        · exact Or.inr ⟨c', h', hp⟩

theorem nodup_foldl_addParentName (cs : List Contribution) (ps : List String)
    (h : ps.Nodup) :
    (cs.foldl (fun ps c => addParentName ps c.parentName) ps).Nodup := by
  induction cs generalizing ps with
  | nil => exact h
  | cons c cs ih => exact ih _ (nodup_addParentName ps c.parentName h)

/-! ## Concrete data for counterexamples and witnesses -/

/-- A concrete stand-in for the host's `localeCompare ≤ 0` relation; the
claims below about row contents hold for every such relation, so any
instance works for the concrete corollaries. -/
def tleTrue : String → String → Bool := fun _ _ => true

/-- Example asset `B` (identifier 2), used as a component child. -/
def exChild : Asset := .mk 2 (some "TB") none none none "B" none none

/-- A required (non-per-instance) component definition: three of `B`. -/
def exComp : AssetComponent := .mk (some exChild) 3 false

/-- Example asset `A` (identifier 1) requiring three of `B`. -/
def exParent : Asset := .mk 1 (some "TA") none none none "A" none (some [exComp])

/-- An instance of `A`. -/
def exInstParent : AssetInstance := ⟨some exParent, none, none⟩

/-- An instance of `B` itself (so `B` is both a top-level asset and `A`'s
component). -/
def exInstChild : AssetInstance := ⟨some exChild, none, none⟩

/-- The BOM row produced for `A` from the collection `[exInstParent]`. -/
def exRowA : BOMItem := ⟨1, "TA", "A", "—", "—", 1, false, [], exParent⟩

/-- The BOM row produced for `B` from the collection `[exInstParent]`. -/
def exRowB : BOMItem := ⟨2, "TB", "B", "—", "—", 3, true, ["A"], exChild⟩

/-! ## Claim theorems: BOM Aggregator -/

/-- C1 (counterexample): in the collection `[exInstParent, exInstChild]`
the asset with identifier 2 appears as the resolved `asset_details` of a
top-level instance, yet — because its first registration was the
component contribution from instance `A`, and `addItem` never rewrites the
role flag of an existing row — its BOM row has `isComponent = true`
(role = component), contradicting the claim that a component-first-then-
parent encounter order still yields role = parent. -/
theorem C1_role_counterexample :
    (some 2 ∈ ([exInstParent, exInstChild].map
      (fun i => i.asset_details.map Asset.id))) ∧
    ∀ r ∈ aggregatedBOM tleTrue [exInstParent, exInstChild],
      r.assetId = 2 → r.isComponent = true := by
  decide

/-- C1 (amended): the role flag is fixed by the first contribution in
processing order.  If an asset's first registration is as a top-level
instance (a parent contribution), its row's role is parent regardless of
how many component-definition or optional-component contributions also
reference it; the claim's component-first-then-parent order, by contrast,
leaves the role at component. -/
theorem C1_parent_first_wins (tle : String → String → Bool)
    (insts : List AssetInstance) (x : Nat) (c : Contribution)
    (rest : List Contribution)
    (hc : contribsFor x (contributions insts) = c :: rest)
    (hpar : c.isComp = false) :
    ∃ r ∈ aggregatedBOM tle insts, r.assetId = x ∧ r.isComponent = false := by
  have hrow : rowOf x (contributions insts) =
      some (applyAll (mkRow c.asset c.qty c.isComp c.parentName) rest) := by
    unfold rowOf
    rw [hc]
  obtain ⟨hid, _, _, c', rest', hc', hflag, _⟩ :=
    rowOf_eq_some_spec x _ _ hrow
  have hcc : c' = c := by
    rw [hc] at hc'
    exact (List.cons_eq_cons.mp hc').1.symm
  refine ⟨_, mem_of_rowOf tle insts _ (by rw [hid]; exact hrow), hid, ?_⟩
  rw [hflag, hcc, hpar]

/-- C1 (witness): in `[exInstChild, exInstParent]` (parent occurrence of
asset 2 first), asset 2's first contribution is the parent registration,
so the amended theorem yields a parent-role row for it. -/
theorem C1_parent_first_wins_witness :
    ∃ r ∈ aggregatedBOM tleTrue [exInstChild, exInstParent],
      r.assetId = 2 ∧ r.isComponent = false :=
  C1_parent_first_wins tleTrue [exInstChild, exInstParent] 2
    ⟨exChild, 1, false, none⟩ [⟨exChild, 3, true, some "A"⟩] rfl rfl

/-- C2: every output row's total quantity is exactly the sum, over all
instances, of 1 per instance whose resolved parent has the row's
identifier, plus `quantity_required` per non-per-instance component
definition with a resolvable child of that identifier on the instance's
parent, plus the optional component instance's own quantity per optional
component resolving to that identifier; per-instance-addable component
definitions contribute nothing by being listed.  In particular, N
instances of one parent with a single non-optional component definition of
required quantity Q yield a component-row total of N·Q. -/
theorem C2_quantity_totals :
    (∀ (tle : String → String → Bool) (insts : List AssetInstance)
      (r : BOMItem), r ∈ aggregatedBOM tle insts →
      r.totalQuantity = (insts.map (fun i => parentContribution r.assetId i +
        requiredContribution r.assetId i + optionalContribution r.assetId i)).sum) ∧
    (∀ (tle : String → String → Bool) (N Q : Nat) (parent child : Asset),
      0 < N → child.id ≠ parent.id →
      parent.components = some [AssetComponent.mk (some child) Q false] →
      ∃ r ∈ aggregatedBOM tle (List.replicate N ⟨some parent, none, none⟩),
        r.assetId = child.id ∧ r.totalQuantity = N * Q) := by
  constructor
  · intro tle insts r hmem
    obtain ⟨_, hqty, _, _⟩ :=
      rowOf_eq_some_spec r.assetId _ r (row_characterization tle insts r hmem)
    rw [hqty, qtySum_contributions]
  · intro tle N Q parent child hN hne hcomps
    have hinst : instContribs ⟨some parent, none, none⟩ =
        [⟨parent, 1, false, none⟩, ⟨child, Q, true, some parent.name⟩] := by
      unfold instContribs
      simp [hcomps, AssetComponent.child_asset, AssetComponent.can_add_per_instance,
        AssetComponent.quantity_required]
    have hcf1 : contribsFor child.id (instContribs ⟨some parent, none, none⟩) =
        [⟨child, Q, true, some parent.name⟩] := by
      rw [hinst, contribsFor_cons, contribsFor_cons]
      have h1 : ¬ ((⟨parent, 1, false, none⟩ : Contribution).asset.id = child.id) :=
        fun h => hne h.symm
      rw [if_neg h1, if_pos rfl]
      rfl
    have hrep : ∀ n : Nat,
        contribsFor child.id (contributions
          (List.replicate n (⟨some parent, none, none⟩ : AssetInstance))) =
        List.replicate n (⟨child, Q, true, some parent.name⟩ : Contribution) := by
      intro n
      induction n with
      | zero => rfl
      | succ n ih =>
        rw [List.replicate_succ, List.replicate_succ]
        simp only [contributions, List.foldr_cons] at *
        rw [contribsFor_append, hcf1, ih]
        rfl
    obtain ⟨n, rfl⟩ : ∃ n, N = n + 1 :=
      ⟨N - 1, (Nat.succ_pred_eq_of_pos hN).symm⟩
    have hrow : rowOf child.id (contributions
        (List.replicate (n + 1) (⟨some parent, none, none⟩ : AssetInstance))) =
        some (applyAll (mkRow child Q true (some parent.name))
          (List.replicate n ⟨child, Q, true, some parent.name⟩)) := by
      unfold rowOf
      rw [hrep (n + 1), List.replicate_succ]
    obtain ⟨hid, hqty, _, _⟩ := rowOf_eq_some_spec child.id _ _ hrow
    refine ⟨_, mem_of_rowOf tle _ _ (by rw [hid]; exact hrow), hid, ?_⟩
    rw [hqty, hrep (n + 1), List.map_replicate]
    simp [List.sum_replicate, smul_eq_mul]

/-- C2 (witness): one instance of `A` (which requires three of `B`)
produces a row for asset 2 with total quantity 1·3. -/
theorem C2_quantity_totals_witness :
    ∃ r ∈ aggregatedBOM tleTrue
      (List.replicate 1 ⟨some exParent, none, none⟩),
      r.assetId = exChild.id ∧ r.totalQuantity = 1 * 3 :=
  C2_quantity_totals.2 tleTrue 1 3 exParent exChild (by decide) (by decide) rfl

/-- C6 (counterexample): in `[exInstChild, exInstParent]` asset 2's row
has role = parent (it was first seen as a top-level instance) yet its
contributing-parent set is non-empty — the later component contribution
from `A` still added `"A"` to the set — contradicting the claim that every
parent-role row has an empty contributing-parent set. -/
theorem C6_parents_counterexample :
    ∃ r ∈ aggregatedBOM tleTrue [exInstChild, exInstParent],
      r.isComponent = false ∧ r.contributingParents ≠ [] := by
  decide

/-- C6 (amended): every output row's contributing-parent list is
duplicate-free and contains exactly the distinct non-empty parent names of
the component-form contributions made to that row (so each contributing
parent appears exactly once no matter how many instances or contributions
it made); a row that received no named contribution — in particular any
asset never referenced as a component — has an empty list, but a
parent-role row that also received component contributions keeps them. -/
theorem C6_contributing_parents (tle : String → String → Bool)
    (insts : List AssetInstance) (r : BOMItem)
    (hmem : r ∈ aggregatedBOM tle insts) :
    r.contributingParents.Nodup ∧
    (∀ p, p ∈ r.contributingParents ↔
      p ≠ "" ∧ ∃ c ∈ contribsFor r.assetId (contributions insts),
        c.parentName = some p) ∧
    ((∀ c ∈ contribsFor r.assetId (contributions insts), c.parentName = none) →
      r.contributingParents = []) := by
  obtain ⟨_, _, hps, _⟩ :=
    rowOf_eq_some_spec r.assetId _ r (row_characterization tle insts r hmem)
  have hmemiff : ∀ p, p ∈ r.contributingParents ↔
      p ≠ "" ∧ ∃ c ∈ contribsFor r.assetId (contributions insts),
        c.parentName = some p := by
    intro p
    rw [hps, mem_foldl_addParentName]
    constructor
    · rintro (h | ⟨c, hc, hp, hne⟩)
      · cases h
      · exact ⟨hne, c, hc, hp⟩
    · rintro ⟨hne, c, hc, hp⟩
      exact Or.inr ⟨c, hc, hp, hne⟩
  refine ⟨?_, hmemiff, ?_⟩
  · rw [hps]
    exact nodup_foldl_addParentName _ _ List.nodup_nil
  · intro hall
    rw [List.eq_nil_iff_forall_not_mem]
    intro p hp
    obtain ⟨_, c, hc, hsome⟩ := (hmemiff p).mp hp
    rw [hall c hc] at hsome
    cases hsome

/-- C6 (witness): for the row of asset 2 in the collection
`[exInstParent]`, the list is duplicate-free and `"A"` is in it exactly
because `A` made a named component contribution. -/
theorem C6_contributing_parents_witness :
    exRowB.contributingParents.Nodup ∧
    ("A" ∈ exRowB.contributingParents ↔
      "A" ≠ "" ∧ ∃ c ∈ contribsFor exRowB.assetId (contributions [exInstParent]),
        c.parentName = some "A") :=
  have h := C6_contributing_parents tleTrue [exInstParent] exRowB
    (by rw [show aggregatedBOM tleTrue [exInstParent] = [exRowA, exRowB] from rfl];
        exact List.mem_cons_of_mem _ (List.mem_cons_self _ _))
  ⟨h.1, h.2.1 "A"⟩

/-- C7: the aggregated BOM never contains two rows with the same asset
identifier — the accumulator is keyed by identifier and the final sort
only permutes it. -/
theorem C7_no_duplicate_ids (tle : String → String → Bool)
    (insts : List AssetInstance) :
    ((aggregatedBOM tle insts).map BOMItem.assetId).Nodup := by
  have hperm : List.Perm (aggregatedBOM tle insts) (bomList insts) :=
    List.perm_insertionSort _ _
  exact ((hperm.map BOMItem.assetId).nodup_iff).mpr (nodup_rowIds_bomList insts)

/-- C9: when an asset identifier already has a row, later contributions
change only `totalQuantity` and the contributing-parent set: every output
row's `typeId`, `name`, `manufacturer`, `model`, role flag and
`originalAsset` are exactly those captured from the first contribution
that created the row, whatever field values later occurrences carry. -/
theorem C9_first_contribution_fields (tle : String → String → Bool)
    (insts : List AssetInstance) (r : BOMItem)
    (hmem : r ∈ aggregatedBOM tle insts) :
    ∃ c rest, contribsFor r.assetId (contributions insts) = c :: rest ∧
      r.typeId = jsOrStr c.asset.type_id "—" ∧
      r.name = c.asset.name ∧
      r.manufacturer = getManufacturerName (some c.asset) ∧
      r.model = jsOrStr c.asset.model "—" ∧
      r.isComponent = c.isComp ∧
      r.originalAsset = c.asset := by
  obtain ⟨_, _, _, c, rest, hc, h1, h2, h3, h4, h5, h6⟩ :=
    rowOf_eq_some_spec r.assetId _ r (row_characterization tle insts r hmem)
  exact ⟨c, rest, hc, h2, h3, h4, h5, h1, h6⟩

/-- C9 (witness): the row of asset 1 in `[exInstParent]` carries exactly
the fields captured from its first (and only) parent contribution. -/
theorem C9_first_contribution_fields_witness :
    ∃ c rest, contribsFor exRowA.assetId (contributions [exInstParent]) = c :: rest ∧
      exRowA.typeId = jsOrStr c.asset.type_id "—" ∧
      exRowA.name = c.asset.name ∧
      exRowA.manufacturer = getManufacturerName (some c.asset) ∧
      exRowA.model = jsOrStr c.asset.model "—" ∧
      exRowA.isComponent = c.isComp ∧
      exRowA.originalAsset = c.asset :=
  C9_first_contribution_fields tleTrue [exInstParent] exRowA
    (by rw [show aggregatedBOM tleTrue [exInstParent] = [exRowA, exRowB] from rfl];
        exact List.mem_cons_self _ _)

/-! ## Analysis layer: the category accumulator -/

/-- `categoryMap[k] || 0`: the accumulated value of a category key. -/
def mapVal (m : List (String × ℚ)) (k : String) : ℚ :=
  ((m.find? (fun e => e.1 == k)).map Prod.snd).getD 0

/-- The category keys, in insertion order. -/
def keyList (m : List (String × ℚ)) : List String := m.map Prod.fst

/-- The sum of all accumulated category values. -/
def sumVals (m : List (String × ℚ)) : ℚ := (m.map Prod.snd).sum

theorem mapVal_mapAdd (m : List (String × ℚ)) (k k' : String) (v : ℚ) :
    mapVal (mapAdd m k v) k' = mapVal m k' + (if k = k' then v else 0) := by
  simp only [mapVal, mapAdd]
  by_cases hany : (m.any fun e => e.1 == k) = true
  · rw [if_pos hany, List.find?_map]
    have hpred : ((fun e : String × ℚ => e.1 == k') ∘ (fun e =>
        if e.1 == k then (e.1, e.2 + v) else e)) =
        (fun e : String × ℚ => e.1 == k') := by
      funext e
      have hfst : (if e.1 == k then (e.1, e.2 + v) else e).1 = e.1 := by
        by_cases h : (e.1 == k) = true <;> simp [h]
      simp only [Function.comp_apply, hfst]
    rw [hpred]
    rcases hfound : m.find? (fun e => e.1 == k') with _ | e
    · by_cases hk : k = k'
      · exfalso
        obtain ⟨e, he, hp⟩ := List.any_eq_true.mp hany
        have h1 : e.1 = k := eq_of_beq hp
        have h2 : (e.1 == k') = true := by simp [h1, hk]
        exact absurd h2 (by simpa using List.find?_eq_none.mp hfound e he)
      · simp [hfound, hk]
    · have hfs := List.find?_some hfound
      have he : e.1 = k' := eq_of_beq hfs
      by_cases hk : k = k'
      · have hbeq : (e.1 == k) = true := by simp [he, hk]
        simp [hfound, hbeq, hk, he]
      · have hbeq : (e.1 == k) = false := by
          simp only [beq_eq_false_iff_ne, ne_eq, he]
          exact fun h => hk h.symm
        simp [hfound, hk, beq_eq_false_iff_ne.mp hbeq]
  · rw [if_neg hany, List.find?_append]
    have hmnone : m.find? (fun e => e.1 == k) = none := by
      rw [List.find?_eq_none]
      intro e he hp
      exact hany (List.any_eq_true.mpr ⟨e, he, hp⟩)
    by_cases hk : k = k'
    · subst hk
      simp [hmnone, List.find?_cons]
    · have hnew : (((k, v) : String × ℚ).1 == k') = false := by
        simp only [beq_eq_false_iff_ne, ne_eq]
        exact hk
      simp only [List.find?_cons, hnew, cond_false]
      rcases m.find? (fun e => e.1 == k') with _ | e <;> simp [hk]

theorem keyList_mapAdd (m : List (String × ℚ)) (k : String) (v : ℚ) :
    keyList (mapAdd m k v) =
      if (m.any fun e => e.1 == k) = true then keyList m else keyList m ++ [k] := by
  simp only [mapAdd]
  by_cases hany : (m.any fun e => e.1 == k) = true
  · rw [if_pos hany, if_pos hany]
    simp only [keyList, List.map_map]
    congr 1
    funext e
    by_cases h : e.1 = k <;> simp [h]
  · rw [if_neg hany, if_neg hany]
    simp [keyList]

theorem nodup_keyList_mapAdd (m : List (String × ℚ)) (k : String) (v : ℚ)
    (h : (keyList m).Nodup) : (keyList (mapAdd m k v)).Nodup := by
  rw [keyList_mapAdd]
  by_cases hany : (m.any fun e => e.1 == k) = true
  · rwa [if_pos hany]
  · rw [if_neg hany, List.nodup_append]
    refine ⟨h, List.nodup_singleton _, ?_⟩
    intro a ha hb
    rw [List.mem_singleton] at hb
    subst hb
    obtain ⟨e, he, hk⟩ := List.mem_map.mp ha
    exact hany (List.any_eq_true.mpr ⟨e, he, by simp [hk]⟩)

theorem sumVals_mapAdd (m : List (String × ℚ)) (k : String) (v : ℚ)
    (h : (keyList m).Nodup) : sumVals (mapAdd m k v) = sumVals m + v := by
  simp only [mapAdd]
  by_cases hany : (m.any fun e => e.1 == k) = true
  · rw [if_pos hany]
    obtain ⟨e₀, he₀, hp₀⟩ := List.any_eq_true.mp hany
    clear hany
    induction m with
    | nil => cases he₀
    | cons e m ih =>
      rw [keyList, List.map_cons, List.nodup_cons] at h
      rcases List.mem_cons.mp he₀ with h1 | h1
      · subst h1
        have hk : e₀.1 = k := eq_of_beq hp₀
        have hrest : ∀ e' ∈ m, (if e'.1 == k then (e'.1, e'.2 + v) else e') = e' := by
          intro e' he'
          have hfalse : (e'.1 == k) = false := by
            rw [beq_eq_false_iff_ne]
            intro hcontra
            apply h.1
            have hm : e'.1 ∈ m.map Prod.fst := List.mem_map.mpr ⟨e', he', rfl⟩
            rwa [hcontra, ← hk] at hm
          simp [hfalse]
        rw [List.map_cons, List.map_congr_left hrest, if_pos hp₀]
        simp only [sumVals, List.map_cons, List.sum_cons]
        simp
        ring
      · have hne : (e.1 == k) = false := by
          rw [beq_eq_false_iff_ne]
          intro hcontra
          apply h.1
          have hk : e₀.1 = k := eq_of_beq hp₀
          have hm : e₀.1 ∈ m.map Prod.fst := List.mem_map.mpr ⟨e₀, h1, rfl⟩
          rwa [hk, ← hcontra] at hm
        rw [List.map_cons, if_neg (by simp [hne])]
        simp only [sumVals, List.map_cons, List.sum_cons] at *
        rw [ih h.2 h1]
        ring
  · rw [if_neg hany]
    simp [sumVals]

theorem mapVal_foldl_mapAdd (cats : List String) (m : List (String × ℚ))
    (v : ℚ) (c : String) :
    mapVal (cats.foldl (fun acc cat => mapAdd acc cat v) m) c =
      mapVal m c + (cats.count c : ℚ) * v := by
  induction cats generalizing m with
  | nil => simp
  | cons cat cats ih =>
    by_cases h : cat = c
    · subst h
      rw [List.foldl_cons, ih, mapVal_mapAdd, if_pos rfl, List.count_cons_self]
      push_cast
      ring
    · rw [List.foldl_cons, ih, mapVal_mapAdd, if_neg h,
        List.count_cons_of_ne (fun hc => h hc.symm)]
      ring

theorem nodup_keyList_foldl (cats : List String) (m : List (String × ℚ)) (v : ℚ)
    (h : (keyList m).Nodup) :
    (keyList (cats.foldl (fun acc cat => mapAdd acc cat v) m)).Nodup := by
  induction cats generalizing m with
  | nil => exact h
  | cons cat cats ih => exact ih _ (nodup_keyList_mapAdd m cat v h)

theorem sumVals_foldl (cats : List String) (m : List (String × ℚ)) (v : ℚ)
    (h : (keyList m).Nodup) :
    sumVals (cats.foldl (fun acc cat => mapAdd acc cat v) m) =
      sumVals m + (cats.length : ℚ) * v := by
  induction cats generalizing m with
  | nil => simp
  | cons cat cats ih =>
    rw [List.foldl_cons, ih _ (nodup_keyList_mapAdd m cat v h),
      sumVals_mapAdd m cat v h, List.length_cons]
    push_cast
    ring

theorem foldl_pair_mapAdd (cats : List String) (acc : List (String × ℚ) × ℚ)
    (v : ℚ) :
    cats.foldl (fun a cat => (mapAdd a.1 cat v, a.2 + v)) acc =
      (cats.foldl (fun m cat => mapAdd m cat v) acc.1,
        acc.2 + (cats.length : ℚ) * v) := by
  induction cats generalizing acc with
  | nil => simp
  | cons cat cats ih =>
    rw [List.foldl_cons, ih, List.foldl_cons, List.length_cons]
    simp only [Prod.mk.injEq]
    refine ⟨trivial, by push_cast; ring⟩

/-- For a tagged instance the allocator step adds, for each parsed
category token, the per-token share `lfShare` to that category and to the
grand total. -/
theorem processMerch_tagged (acc : List (String × ℚ) × ℚ) (inst : AssetInstance)
    (h : jsTrim (catStringOf inst) ≠ "") :
    processMerch acc inst =
      ((parseCategories (catStringOf inst)).foldl
        (fun m cat => mapAdd m cat
          ((widthMM inst / (parseCategories (catStringOf inst)).length) /
            (304.8 : ℚ))) acc.1,
       acc.2 + ((parseCategories (catStringOf inst)).length : ℚ) *
        ((widthMM inst / (parseCategories (catStringOf inst)).length) /
          (304.8 : ℚ))) := by
  unfold processMerch
  rw [if_neg h, foldl_pair_mapAdd]

theorem processMerch_untagged (acc : List (String × ℚ) × ℚ)
    (inst : AssetInstance) (h : jsTrim (catStringOf inst) = "") :
    processMerch acc inst = acc := by
  unfold processMerch
  rw [if_pos h]

theorem merchFold_inv (insts : List AssetInstance) :
    (keyList (merchFold insts).1).Nodup ∧
    (merchFold insts).2 = sumVals (merchFold insts).1 := by
  have hgen : ∀ (l : List AssetInstance) (acc : List (String × ℚ) × ℚ),
      (keyList acc.1).Nodup → acc.2 = sumVals acc.1 →
      (keyList (l.foldl processMerch acc).1).Nodup ∧
      (l.foldl processMerch acc).2 = sumVals (l.foldl processMerch acc).1 := by
    intro l
    induction l with
    | nil => exact fun acc h1 h2 => ⟨h1, h2⟩
    | cons i l ih =>
      intro acc h1 h2
      rw [List.foldl_cons]
      by_cases ht : jsTrim (catStringOf i) = ""
      · rw [processMerch_untagged acc i ht]
        exact ih acc h1 h2
      · rw [processMerch_tagged acc i ht]
        refine ih _ (nodup_keyList_foldl _ _ _ h1) ?_
        rw [sumVals_foldl _ _ _ h1, h2]
  exact hgen insts ([], 0) List.nodup_nil rfl

/-- C3: for every instance whose `merch_category` tag is non-empty after
trimming, the tag is split on `"//"`, tokens trimmed and empty tokens
discarded; each parsed token adds one share `(widthMM / k) / 304.8` to its
category (so a category named `m` times gains `m` shares), and when the
`k` parsed names are pairwise distinct every one of them receives exactly
`(widthMM / 304.8) / k` — half each for a two-way split. -/
theorem C3_equal_split (acc : List (String × ℚ) × ℚ) (inst : AssetInstance)
    (h : jsTrim (catStringOf inst) ≠ "") :
    (∀ c : String, mapVal (processMerch acc inst).1 c =
      mapVal acc.1 c + ((parseCategories (catStringOf inst)).count c : ℚ) *
        ((widthMM inst / (parseCategories (catStringOf inst)).length) /
          (304.8 : ℚ))) ∧
    ((parseCategories (catStringOf inst)).Nodup →
      ∀ c ∈ parseCategories (catStringOf inst),
        mapVal (processMerch acc inst).1 c =
          mapVal acc.1 c + (widthMM inst / (304.8 : ℚ)) /
            ((parseCategories (catStringOf inst)).length : ℚ)) := by
  have hmain : ∀ c : String, mapVal (processMerch acc inst).1 c =
      mapVal acc.1 c + ((parseCategories (catStringOf inst)).count c : ℚ) *
        ((widthMM inst / (parseCategories (catStringOf inst)).length) /
          (304.8 : ℚ)) := by
    intro c
    rw [processMerch_tagged acc inst h]
    exact mapVal_foldl_mapAdd _ _ _ _
  refine ⟨hmain, fun hnd c hc => ?_⟩
  rw [hmain c, List.count_eq_one_of_mem hnd hc]
  have hk : ((parseCategories (catStringOf inst)).length : ℚ) ≠ 0 := by
    have : 0 < (parseCategories (catStringOf inst)).length :=
      List.length_pos_of_mem hc
    exact_mod_cast Nat.pos_iff_ne_zero.mp this
  field_simp
  ring

/-- C3 (witness): for the tag `"Lighting // Hooks"` on an instance of
width 3048 mm (10 LF), each of the two categories receives 5 LF. -/
theorem C3_equal_split_witness :
    mapVal (processMerch ([], 0)
      ⟨some (.mk 9 none none none none "X" (some 3048) none), none,
        some ⟨some "Lighting // Hooks"⟩⟩).1 "Lighting" =
      mapVal ([] : List (String × ℚ)) "Lighting" +
        (widthMM ⟨some (.mk 9 none none none none "X" (some 3048) none), none,
          some ⟨some "Lighting // Hooks"⟩⟩ / (304.8 : ℚ)) /
        ((parseCategories (catStringOf
          ⟨some (.mk 9 none none none none "X" (some 3048) none), none,
            some ⟨some "Lighting // Hooks"⟩⟩)).length : ℚ) :=
  (C3_equal_split ([], 0) _ (by decide)).2 (by decide) "Lighting" (by decide)

/-- C10: the allocator's grand total always equals, in exact arithmetic,
the sum of all per-category accumulated values; each tagged instance with
`k` parsed categories adds exactly `k × ((widthMM / k) / 304.8)` to the
grand total, which for `k > 0` equals `widthMM / 304.8` — independent of
how the width was split across categories. -/
theorem C10_total_conservation :
    (∀ insts : List AssetInstance,
      (merchFold insts).2 = sumVals (merchFold insts).1) ∧
    (∀ (acc : List (String × ℚ) × ℚ) (inst : AssetInstance),
      jsTrim (catStringOf inst) ≠ "" →
      (processMerch acc inst).2 = acc.2 +
        ((parseCategories (catStringOf inst)).length : ℚ) *
          ((widthMM inst / (parseCategories (catStringOf inst)).length) /
            (304.8 : ℚ)) ∧
      (0 < (parseCategories (catStringOf inst)).length →
        (processMerch acc inst).2 = acc.2 + widthMM inst / (304.8 : ℚ))) := by
  constructor
  · exact fun insts => (merchFold_inv insts).2
  · intro acc inst h
    have hsnd : (processMerch acc inst).2 = acc.2 +
        ((parseCategories (catStringOf inst)).length : ℚ) *
          ((widthMM inst / (parseCategories (catStringOf inst)).length) /
            (304.8 : ℚ)) := by
      rw [processMerch_tagged acc inst h]
    refine ⟨hsnd, fun hk => ?_⟩
    rw [hsnd]
    have hk' : ((parseCategories (catStringOf inst)).length : ℚ) ≠ 0 := by
      exact_mod_cast Nat.pos_iff_ne_zero.mp hk
    field_simp
    ring

/-- C10 (witness): a `"Lighting // Hooks"`-tagged instance of width
3048 mm adds exactly `3048 / 304.8` linear feet to the grand total. -/
theorem C10_total_conservation_witness :
    (processMerch ([], 0)
      ⟨some (.mk 9 none none none none "X" (some 3048) none), none,
        some ⟨some "Lighting // Hooks"⟩⟩).2 =
      (([], 0) : List (String × ℚ) × ℚ).2 +
        widthMM ⟨some (.mk 9 none none none none "X" (some 3048) none), none,
          some ⟨some "Lighting // Hooks"⟩⟩ / (304.8 : ℚ) :=
  ((C10_total_conservation.2 ([], 0) _ (by decide)).2 (by decide))

theorem sortedCategories_eq (insts : List AssetInstance) :
    sortedCategories insts =
      List.insertionSort chartGE ((merchFold insts).1.map (fun e =>
        { name := replDS e.1,
          value := round2 e.2,
          percentage := if (merchFold insts).2 > 0 then
            round1 (e.2 / (merchFold insts).2 * 100) else 0 })) := rfl

theorem donutData_eq (insts : List AssetInstance) (topCount : Nat) :
    donutData insts topCount =
      if ((sortedCategories insts).drop topCount).length > 0 then
        (sortedCategories insts).take topCount ++
          [{ name := "Other Merchandising",
             value := round2 (((sortedCategories insts).drop topCount).foldl
               (fun sum item => sum + item.value) 0),
             percentage := if (merchFold insts).2 > 0 then
               round1 ((((sortedCategories insts).drop topCount).foldl
                 (fun sum item => sum + item.value) 0) /
                   (merchFold insts).2 * 100)
               else 0 }]
      else (sortedCategories insts).take topCount := rfl

theorem mem_sortedCategories (insts : List AssetInstance) (r : ChartItem) :
    r ∈ sortedCategories insts ↔
      r ∈ (merchFold insts).1.map (fun e =>
        { name := replDS e.1,
          value := round2 e.2,
          percentage := if (merchFold insts).2 > 0 then
            round1 (e.2 / (merchFold insts).2 * 100) else 0 }) := by
  rw [sortedCategories_eq]
  exact (List.perm_insertionSort chartGE _).mem_iff

theorem toFixed1_zero : toFixed1 0 = "0.0" := by
  have hfloor : ⌊(0 : ℚ) * 10 + 1 / 2⌋ = 0 := by norm_num
  unfold toFixed1
  rw [hfloor]
  rfl

theorem merchFold_untagged (insts : List AssetInstance)
    (h : ∀ inst ∈ insts, jsTrim (catStringOf inst) = "") :
    merchFold insts = ([], 0) := by
  have hgen : ∀ (l : List AssetInstance) (acc : List (String × ℚ) × ℚ),
      (∀ inst ∈ l, jsTrim (catStringOf inst) = "") →
      l.foldl processMerch acc = acc := by
    intro l
    induction l with
    | nil => exact fun acc _ => rfl
    | cons i l ih =>
      intro acc hl
      rw [List.foldl_cons,
        processMerch_untagged acc i (hl i (List.mem_cons_self i l))]
      exact ih acc (fun inst hinst => hl inst (List.mem_cons_of_mem i hinst))
  exact hgen insts ([], 0) h

/-- C8: a collection with no (non-whitespace) merchandising tags yields an
empty accumulator, an empty donut data set and the formatted grand total
`"0.0"` — untagged instances contribute nothing at all (the allocator step
is the identity on them) — and whenever the grand total is zero every
percentage in the output (the synthetic "Other Merchandising" row
included) is 0 rather than a division-by-zero failure. -/
theorem C8_zero_total :
    (∀ (acc : List (String × ℚ) × ℚ) (inst : AssetInstance),
      jsTrim (catStringOf inst) = "" → processMerch acc inst = acc) ∧
    (∀ (insts : List AssetInstance) (topCount : Nat),
      (∀ inst ∈ insts, jsTrim (catStringOf inst) = "") →
      merchFold insts = ([], 0) ∧ donutData insts topCount = [] ∧
        totalMerchandisableLF insts = "0.0") ∧
    (∀ (insts : List AssetInstance) (topCount : Nat),
      (merchFold insts).2 = 0 →
      ∀ r ∈ donutData insts topCount, r.percentage = 0) := by
  refine ⟨processMerch_untagged, ?_, ?_⟩
  · intro insts topCount h
    have hmf : merchFold insts = ([], 0) := merchFold_untagged insts h
    have hsorted : sortedCategories insts = [] := by
      rw [sortedCategories_eq, hmf]
      rfl
    refine ⟨hmf, ?_, ?_⟩
    · rw [donutData_eq, hsorted]
      simp
    · unfold totalMerchandisableLF
      rw [hmf]
      exact toFixed1_zero
  · intro insts topCount h0 r hr
    have hrow : ∀ s ∈ sortedCategories insts, s.percentage = (0 : ℚ) := by
      intro s hs
      obtain ⟨e, _, rfl⟩ := List.mem_map.mp ((mem_sortedCategories insts s).mp hs)
      simp only [h0]
      norm_num
    rw [donutData_eq] at hr
    by_cases hlen : ((sortedCategories insts).drop topCount).length > 0
    · rw [if_pos hlen] at hr
      rcases List.mem_append.mp hr with h | h
      · exact hrow r (List.mem_of_mem_take h)
      · rw [List.mem_singleton] at h
        subst h
        simp only [h0]
        norm_num
    · rw [if_neg hlen] at hr
      exact hrow r (List.mem_of_mem_take hr)

/-- C8 (witness): a one-element collection whose instance has a
whitespace-only tag produces the empty accumulator, no donut rows, and
the formatted total `"0.0"`. -/
theorem C8_zero_total_witness :
    merchFold [⟨some (.mk 9 none none none none "X" (some 3048) none), none,
      some ⟨some "   "⟩⟩] = ([], 0) ∧
    donutData [⟨some (.mk 9 none none none none "X" (some 3048) none), none,
      some ⟨some "   "⟩⟩] 5 = [] ∧
    totalMerchandisableLF [⟨some (.mk 9 none none none none "X" (some 3048) none),
      none, some ⟨some "   "⟩⟩] = "0.0" :=
  C8_zero_total.2.1 [⟨some (.mk 9 none none none none "X" (some 3048) none), none,
    some ⟨some "   "⟩⟩] 5 (by decide)

theorem round2_round2 (q : ℚ) : round2 (round2 q) = round2 q := by
  unfold round2
  have h1 : ((⌊q * 100 + 1 / 2⌋ : ℚ) / 100) * 100 = (⌊q * 100 + 1 / 2⌋ : ℚ) := by
    field_simp
  rw [h1, Int.floor_int_add]
  norm_num

theorem value_round2_stable (insts : List AssetInstance) (r : ChartItem)
    (h : r ∈ sortedCategories insts) : round2 r.value = r.value := by
  obtain ⟨e, _, rfl⟩ := List.mem_map.mp ((mem_sortedCategories insts r).mp h)
  exact round2_round2 e.2

theorem sorted_sortedCategories (insts : List AssetInstance) :
    List.Sorted chartGE (sortedCategories insts) := by
  rw [sortedCategories_eq]
  exact List.sorted_insertionSort chartGE _

theorem length_sortedCategories (insts : List AssetInstance) :
    (sortedCategories insts).length = (merchFold insts).1.length := by
  rw [sortedCategories_eq, (List.perm_insertionSort chartGE _).length_eq,
    List.length_map]

/-- C4: the allocator keeps the first N sorted rows unchanged; with N or
fewer rows in total the output is exactly the sorted row list and no
"Other Merchandising" row is added; with more than N rows it appends
exactly one synthetic "Other Merchandising" row whose value is the sum of
the collapsed rows' already-rounded values re-rounded to two decimals and
whose percentage is recomputed from that sum against the grand total; and
with exactly N+1 distinct categories the output has exactly N+1 rows, the
last being an Other row whose value equals the smallest category value. -/
theorem C4_topN_other (insts : List AssetInstance) (N : Nat) :
    (donutData insts N).take N = (sortedCategories insts).take N ∧
    ((sortedCategories insts).length ≤ N →
      donutData insts N = sortedCategories insts) ∧
    (N < (sortedCategories insts).length →
      donutData insts N = (sortedCategories insts).take N ++
        [{ name := "Other Merchandising",
           value := round2 (((sortedCategories insts).drop N).foldl
             (fun sum item => sum + item.value) 0),
           percentage := if (merchFold insts).2 > 0 then
             round1 ((((sortedCategories insts).drop N).foldl
               (fun sum item => sum + item.value) 0) /
                 (merchFold insts).2 * 100)
             else 0 }]) ∧
    ((merchFold insts).1.length = N + 1 →
      (donutData insts N).length = N + 1 ∧
      ∃ other, donutData insts N = (sortedCategories insts).take N ++ [other] ∧
        (∀ r ∈ sortedCategories insts, other.value ≤ r.value) ∧
        (∃ r ∈ sortedCategories insts, r.value = other.value)) := by
  have hb : (sortedCategories insts).length ≤ N →
      donutData insts N = sortedCategories insts := by
    intro hle
    rw [donutData_eq, List.drop_eq_nil_of_le hle]
    simp [List.take_of_length_le hle]
  have hc : N < (sortedCategories insts).length →
      donutData insts N = (sortedCategories insts).take N ++
        [{ name := "Other Merchandising",
           value := round2 (((sortedCategories insts).drop N).foldl
             (fun sum item => sum + item.value) 0),
           percentage := if (merchFold insts).2 > 0 then
             round1 ((((sortedCategories insts).drop N).foldl
               (fun sum item => sum + item.value) 0) /
                 (merchFold insts).2 * 100)
             else 0 }] := by
    intro hlt
    rw [donutData_eq, if_pos (by rw [List.length_drop]; omega)]
  refine ⟨?_, hb, hc, ?_⟩
  · by_cases h : N < (sortedCategories insts).length
    · rw [hc h, List.take_append_eq_append_take, List.take_take,
        Nat.min_self, List.length_take]
      have : N - min N (sortedCategories insts).length = 0 := by omega
      rw [this]
      simp
    · rw [hb (by omega)]
  · intro hN1
    have hslen : (sortedCategories insts).length = N + 1 := by
      rw [length_sortedCategories, hN1]
    have hlt : N < (sortedCategories insts).length := by omega
    obtain ⟨r0, hr0⟩ : ∃ r0, (sortedCategories insts).drop N = [r0] :=
      List.length_eq_one.mp (by rw [List.length_drop, hslen]; omega)
    have hr0mem : r0 ∈ sortedCategories insts :=
      List.mem_of_mem_drop (hr0 ▸ List.mem_singleton_self r0)
    have hsum : ((sortedCategories insts).drop N).foldl
        (fun sum item => sum + item.value) 0 = r0.value := by
      rw [hr0, List.foldl_cons, List.foldl_nil, zero_add]
    have hoval : round2 (((sortedCategories insts).drop N).foldl
        (fun sum item => sum + item.value) 0) = r0.value := by
      rw [hsum]
      exact value_round2_stable insts r0 hr0mem
    constructor
    · rw [hc hlt, List.length_append, List.length_take]
      simp [hslen]
    · have hdon := hc hlt
      rw [hoval] at hdon
      refine ⟨_, hdon, ?_, ?_⟩
      · intro r hr
        show r0.value ≤ r.value
        have hpw : ((sortedCategories insts).take N ++
            (sortedCategories insts).drop N).Pairwise chartGE := by
          rw [List.take_append_drop]
          exact sorted_sortedCategories insts
        obtain ⟨-, -, hcross⟩ := List.pairwise_append.mp hpw
        have hsplit : r ∈ (sortedCategories insts).take N ++
            (sortedCategories insts).drop N := by
          rw [List.take_append_drop]
          exact hr
        rcases List.mem_append.mp hsplit with h | h
        · exact hcross r h r0 (hr0 ▸ List.mem_singleton_self r0)
        · rw [hr0, List.mem_singleton] at h
          subst h
          exact le_refl _
      · exact ⟨r0, hr0mem, rfl⟩

/-- C4 (witness): with two distinct categories ("A" of 10 LF, "B" of 5 LF)
and a cutoff of 1, the output has exactly 2 rows: the top row plus an
"Other Merchandising" row whose value equals the smallest category
value. -/
theorem C4_topN_other_witness :
    (donutData [⟨some (.mk 9 none none none none "X" (some 3048) none), none,
        some ⟨some "A"⟩⟩,
      ⟨some (.mk 9 none none none none "X" (some 1524) none), none,
        some ⟨some "B"⟩⟩] 1).length = 1 + 1 ∧
    ∃ other, donutData [⟨some (.mk 9 none none none none "X" (some 3048) none),
        none, some ⟨some "A"⟩⟩,
      ⟨some (.mk 9 none none none none "X" (some 1524) none), none,
        some ⟨some "B"⟩⟩] 1 =
      (sortedCategories [⟨some (.mk 9 none none none none "X" (some 3048) none),
        none, some ⟨some "A"⟩⟩,
      ⟨some (.mk 9 none none none none "X" (some 1524) none), none,
        some ⟨some "B"⟩⟩]).take 1 ++ [other] ∧
      (∀ r ∈ sortedCategories [⟨some (.mk 9 none none none none "X" (some 3048)
          none), none, some ⟨some "A"⟩⟩,
        ⟨some (.mk 9 none none none none "X" (some 1524) none), none,
          some ⟨some "B"⟩⟩], other.value ≤ r.value) ∧
      (∃ r ∈ sortedCategories [⟨some (.mk 9 none none none none "X" (some 3048)
          none), none, some ⟨some "A"⟩⟩,
        ⟨some (.mk 9 none none none none "X" (some 1524) none), none,
          some ⟨some "B"⟩⟩], r.value = other.value) :=
  (C4_topN_other [⟨some (.mk 9 none none none none "X" (some 3048) none), none,
      some ⟨some "A"⟩⟩,
    ⟨some (.mk 9 none none none none "X" (some 1524) none), none,
      some ⟨some "B"⟩⟩] 1).2.2.2 (by decide)
